import Mathlib

/-!
# Verification of the Hermes transactional-outbox runtime

Shallow embedding of the core of the `chassisjs/hermes` repository
(PostgreSQL logical-replication backend, MongoDB change-stream backend,
auxiliary polling outbox) together with proofs and refutations of the
frozen specification claims.

Every definition is translated from the TypeScript source.  A few
collaborating modules are imported by the source but are not part of the
provided tree (`common/offset.js`, `publishingQueue/*`,
`OutboxConsumerState.ts`, `migrate.ts`); where a claim depends on one of
those, the corresponding definition carries a doc comment starting with
`Modelled from the spec:` and follows the specification's words.
-/

namespace Hermes

/-! ## Wire buffers and the logical-replication tuple decoders

From `subscribeToReplicationSlot/processInsertMessage.ts`.  A Node
`Buffer` is modelled as a list of byte values.  The `Offset` helper
(`common/offset.js`, not in the tree) is a mutable position cursor; its
semantics are forced by the decoders' call sites: `value()` returns the
current position, `addInt8`/`addInt32` advance by 1/4 and return the new
position, `add(n)` advances by `n` and returns the new position.  The
cursor is embedded as explicit position passing. -/

/-- A wire buffer: a list of bytes. -/
abbrev Buffer := List Nat

/-- Node `Buffer.readUInt32BE`: big-endian 32-bit read at offset `p`. -/
def readU32BE (b : Buffer) (p : Nat) : Nat :=
  b.getD p 0 * 16777216 + b.getD (p + 1) 0 * 65536 + b.getD (p + 2) 0 * 256 + b.getD (p + 3) 0

/-- Big-endian unsigned read of `n` bytes at offset `p`
(`readUInt8` / `readUInt16BE` / `readUInt32BE` / `readBigUInt64BE`). -/
def readBEBytes (b : Buffer) (p n : Nat) : Nat :=
  (List.range n).foldl (fun acc i => acc * 256 + b.getD (p + i) 0) 0

/-- The byte value of the text-format tag `t`. -/
def textTag : Nat := 116

/-- A failed `assert` inside a decoder, with the label the source passes. -/
inductive DecodeError : Type
  | assertFailed (label : String)
  deriving Repr, DecidableEq

/-- JavaScript `parseInt(s, 10)` / `BigInt(s)` on a decimal digit string, modelled on
the value bytes.  Exact for the digit strings produced by PostgreSQL. -/
def parseDecimal (bs : List Nat) : Nat :=
  bs.foldl (fun acc d => acc * 10 + (d - 48)) 0

/-- Result of `readBigInt`: JavaScript distinguishes the `parseInt` result
(a 64-bit float `number`) from the `BigInt` arbitrary-precision result. -/
inductive JsInt : Type
  | number (v : Nat)
  | big (v : Nat)
  deriving Repr, DecidableEq

/-- The `readUInt` reader from `processInsertMessage.ts`: asserts the text tag and a
length in 1,2,4,8, then reads that many bytes big-endian at the value
position.  Returns the value and the advanced cursor. -/
def readUInt (b : Buffer) (pos : Nat) : Except DecodeError (Nat × Nat) :=
  let columnType := b.getD pos 0
  let columnLength := readU32BE b (pos + 1)
  if columnType ≠ textTag then .error (.assertFailed "readUInt.columnType")
  else if ¬(columnLength = 1 ∨ columnLength = 2 ∨ columnLength = 4 ∨ columnLength = 8) then
    .error (.assertFailed "readUInt.columnLength")
  else .ok (readBEBytes b (pos + 5) columnLength, pos + 5 + columnLength)

/-- The `readBigInt` reader from `processInsertMessage.ts`: asserts the text tag,
takes the value bytes `[pos+5, pos+5+len)` as the decimal text and parses
them with `BigInt` when `len > 8`, `parseInt` otherwise. -/
def readBigInt (b : Buffer) (pos : Nat) : Except DecodeError (JsInt × Nat) :=
  let columnType := b.getD pos 0
  let columnLength := readU32BE b (pos + 1)
  if columnType ≠ textTag then .error (.assertFailed "readUInt.columnType")
  else
    let strValue := (b.drop (pos + 5)).take columnLength
    let value : JsInt :=
      if columnLength > 8 then .big (parseDecimal strValue) else .number (parseDecimal strValue)
    .ok (value, pos + 5 + columnLength)

/-- The `readText` reader from `processInsertMessage.ts`: asserts the text tag and
returns the value bytes (the UTF-8 text) together with the new cursor. -/
def readText (b : Buffer) (pos : Nat) : Except DecodeError (List Nat × Nat) :=
  let columnType := b.getD pos 0
  let columnLength := readU32BE b (pos + 1)
  if columnType ≠ textTag then .error (.assertFailed "readText.columnType")
  else .ok ((b.drop (pos + 5)).take columnLength, pos + 5 + columnLength)

/-- The `readJsonb` reader from `processInsertMessage.ts`: identical to `readText`
except for the assertion label. -/
def readJsonb (b : Buffer) (pos : Nat) : Except DecodeError (List Nat × Nat) :=
  let columnType := b.getD pos 0
  let columnLength := readU32BE b (pos + 1)
  if columnType ≠ textTag then .error (.assertFailed "readText.readJsonb")
  else .ok ((b.drop (pos + 5)).take columnLength, pos + 5 + columnLength)

/-! ## Document-backend watch loop

From `hermes-mongodb/src/index.ts` (`createOutboxConsumer`): the `watch`
loop pulls change events in stream order, skips non-insert events,
retries the user callback until it returns normally
(`_waitUntilEventIsSent`), optionally stamps `sentAt` on the outbox
document (`saveTimestamps` branch), and only then advances the
consumer-state row (`consumer.update(documentKey._id, resumeToken)`). -/

/-- A primary outbox document (`OutboxMessageModel`): `_id`, partition
key, opaque event payload, and the nullable `sentAt` stamp. -/
structure OutboxDoc where
  id : Nat
  partitionKey : String
  data : String
  sentAt : Option Nat
  deriving Repr, DecidableEq

/-- A change-stream event: resume token (monotone in stream order),
operation type (`insert` or not), and the full document. -/
structure ChangeEvent where
  resumeToken : Nat
  opInsert : Bool
  doc : OutboxDoc
  deriving Repr, DecidableEq

/-- Observable actions of the watch loop: a user-callback invocation for
a document (throwing or returning normally), a `sentAt` stamp, and a
consumer-state advance persisting the ack token. -/
inductive WatchAct : Type
  | publish (id : Nat)
  | stampSentAt (id : Nat)
  | ackUpdate (id : Nat) (token : Nat)
  deriving Repr, DecidableEq

/-- One iteration of `watch` on one change event, whose publish callback
throws `fails` times and then returns normally: non-insert events are
skipped; an insert is published until success, optionally stamped, and
then acknowledged. -/
def processEvent (saveTimestamps : Bool) (fails : Nat) (e : ChangeEvent) : List WatchAct :=
  if e.opInsert then
    List.replicate fails (.publish e.doc.id) ++ [.publish e.doc.id] ++
      (if saveTimestamps then [.stampSentAt e.doc.id] else []) ++
      [.ackUpdate e.doc.id e.resumeToken]
  else []

/-- The action trace of a `watch` run over a list of change events.
`fails id` is the number of times the callback throws for document `id`
before returning normally. -/
def watchTrace (saveTimestamps : Bool) (fails : Nat → Nat) (events : List ChangeEvent) :
    List WatchAct :=
  (events.map fun e => processEvent saveTimestamps (fails e.doc.id) e).flatten

/-- The sequence of ack tokens persisted by `consumer.update`, in the
order they are written. -/
def ackTokens (tr : List WatchAct) : List Nat :=
  tr.filterMap fun a =>
    match a with
    | .ackUpdate _ tok => some tok
    | _ => none

/-- Every persisted ack is preceded by a publish-callback invocation for
the same document. -/
def acksAfterPublish (tr : List WatchAct) : Prop :=
  ∀ t1 t2 i tok, tr = t1 ++ WatchAct.ackUpdate i tok :: t2 → WatchAct.publish i ∈ t1

/-- The `saveTimestamps` branch of `watch`:
`updateOne({ _id: message._id }, { $set: { sentAt: now() } })` on the
outbox messages collection. -/
def stampDoc (i now : Nat) (docs : List OutboxDoc) : List OutboxDoc :=
  docs.map fun d => if d.id = i then { d with sentAt := some now } else d

/-- Effect of a complete `watch` run on the outbox messages collection:
each successfully published insert event stamps `sentAt` when
`saveTimestamps` is set, and touches nothing otherwise. -/
def watchRunDocs (saveTimestamps : Bool) (now : Nat) (events : List ChangeEvent)
    (docs : List OutboxDoc) : List OutboxDoc :=
  events.foldl
    (fun ds e => if e.opInsert && saveTimestamps then stampDoc e.doc.id now ds else ds) docs

/-- The fields of an outbox document other than `sentAt`. -/
def docFrame (d : OutboxDoc) : Nat × String × String :=
  (d.id, d.partitionKey, d.data)

/-- The retry loop `_waitUntilEventIsSent` from `hermes-mongodb/src/index.ts`: the user
callback receives the raw `message.data` on every attempt, failed and
successful alike; nothing else is passed. -/
def mongoPublishArgs (eventData : String) (fails : Nat) : List String :=
  List.replicate fails eventData ++ [eventData]

/-! ## Host transactions and `queue` (log backend) / `withScope` (document backend)

From `OutboxConsumer.queue` / `_publishOne` (PostgreSQL) and
`createOutboxConsumer.withScope` / `addMessage` (MongoDB): outbox rows
are inserted on the supplied host-managed transaction when one is
provided, otherwise inside a transaction the call opens itself.  The
storage engine assigns the monotone position at insert; an abort
discards the transaction's pending rows (but, as in PostgreSQL, not the
consumed serial positions). -/

/-- A message handed to `queue`/`send`/`publish`. -/
structure Msg where
  messageId : String
  messageType : String
  payload : String
  deriving Repr, DecidableEq

/-- A committed primary outbox row (§3 of the spec, `outbox` table). -/
structure OutboxRow where
  position : Nat
  messageId : String
  messageType : String
  partitionKey : String
  payload : String
  deriving Repr, DecidableEq

/-- The durable storage state: the serial position counter and the
committed outbox rows in position order. -/
structure World where
  nextPos : Nat
  committed : List OutboxRow
  deriving Repr, DecidableEq

/-- An open host-managed transaction: its not-yet-committed inserts. -/
structure HostTx where
  pending : List OutboxRow
  deriving Repr, DecidableEq

/-- The insert `_publishOne` on a host transaction: one INSERT INTO outbox; the
engine assigns the next serial position. -/
def insertTx (w : World) (tx : HostTx) (m : Msg) (pk : String) : World × HostTx :=
  ({ w with nextPos := w.nextPos + 1 },
   { pending := tx.pending ++ [⟨w.nextPos, m.messageId, m.messageType, pk, m.payload⟩] })

/-- Committing a host transaction appends its pending rows. -/
def commitTx (w : World) (tx : HostTx) : World :=
  { w with committed := w.committed ++ tx.pending }

/-- Aborting a host transaction discards its pending rows. -/
def abortTx (w : World) (_tx : HostTx) : World := w

/-- Calling `queue(messages, { tx })` with a supplied transaction: every message
is inserted on that transaction (the `savepoint in sql` branch). -/
def queueWithTx (msgs : List Msg) (pk : String) (w : World) (tx : HostTx) : World × HostTx :=
  msgs.foldl (fun wt m => insertTx wt.1 wt.2 m pk) (w, tx)

/-- Calling `queue(messages)` without a transaction: the call opens its own
transaction (`sql.begin`), inserts every message, and commits. -/
def queueOwnTx (msgs : List Msg) (pk : String) (w : World) : World :=
  let wt := queueWithTx msgs pk w ⟨[]⟩
  commitTx wt.1 wt.2

/-- The method `OutboxConsumer.queue`: dispatch on whether a host transaction was
supplied (`options?.tx || this._sql`). -/
def queueApi (msgs : List Msg) (pk : String) (txq : Option HostTx) (w : World) :
    World × Option HostTx :=
  match txq with
  | some tx => let wt := queueWithTx msgs pk w tx; (wt.1, some wt.2)
  | none => (queueOwnTx msgs pk w, none)

/-- The rows `queue` stages for `msgs` starting at serial position
`start`. -/
def mkRows (start : Nat) (pk : String) : List Msg → List OutboxRow
  | [] => []
  | m :: ms => ⟨start, m.messageId, m.messageType, pk, m.payload⟩ :: mkRows (start + 1) pk ms

/-- Modelled from the spec: the ingestor (`logicalReplicationStream.ts` /
the change stream, absent from the tree) emits only committed outbox
rows, so the message ids a publish invocation can ever carry are the ids
of committed rows. -/
def deliverableIds (w : World) : List String :=
  w.committed.map (·.messageId)

/-! ## Consumer start and the slot mutex (log backend)

`OutboxConsumer.start` runs migrations, loads or creates the
consumer-state row, then opens the replication stream; slot acquisition
failure is translated by the catch clause into
`HermesConsumerAlreadyTakenError`. -/

/-- A `postgres.PostgresError` as far as the catch clause inspects it. -/
structure PgError where
  routine : String
  code : String
  deriving Repr, DecidableEq

/-- What `start` can surface. -/
inductive StartError : Type
  | alreadyTaken (consumerName partitionKey : String)
  | pg (e : PgError)
  deriving Repr, DecidableEq

/-- Modelled from the spec: `common/consts.js` is absent; §3/§6 give the
slot name as `hermes_<consumerName>_<partitionKey>`. -/
def getSlotName (c p : String) : String :=
  "hermes_" ++ c ++ "_" ++ p

/-- Server-side state `start` touches: applied migrations, consumer-state
rows keyed by (consumerName, partitionKey), and acquired slots. -/
structure PgWorld where
  migrated : Bool
  consumerRows : List (String × String)
  takenSlots : List String
  deriving Repr, DecidableEq

/-- Modelled from the spec: `migrate.ts` is absent; §4.6 — migrations are
idempotent, "slot/publication already exists" are non-errors. -/
def migrateW (w : PgWorld) : PgWorld :=
  { w with migrated := true }

/-- Modelled from the spec: `OutboxConsumerState.ts` is absent; `start`
"loads or creates the consumer-state row" (§4.1). -/
def createOrLoad (c p : String) (w : PgWorld) : PgWorld :=
  if (c, p) ∈ w.consumerRows then w else { w with consumerRows := (c, p) :: w.consumerRows }

/-- Modelled from the spec: replication-slot acquisition (driver absent);
at most one active streamer per slot — a second acquisition fails with
the engine's object-in-use signal (routine `ReplicationSlotAcquire`,
SQLSTATE 55006), leaving the registry unchanged. -/
def acquireSlot (s : String) (w : PgWorld) : Except PgError PgWorld :=
  if s ∈ w.takenSlots then .error ⟨"ReplicationSlotAcquire", "55006"⟩
  else .ok { w with takenSlots := s :: w.takenSlots }

/-- The catch clause of `OutboxConsumer.start`: a `PostgresError` with
routine `ReplicationSlotAcquire` or code `55006` becomes
`HermesConsumerAlreadyTakenError { consumerName, partitionKey }`; any
other error is rethrown. -/
def mapStartError (c p : String) (e : PgError) : StartError :=
  if e.routine = "ReplicationSlotAcquire" ∨ e.code = "55006" then .alreadyTaken c p
  else .pg e

/-- The method `OutboxConsumer.start` as a state transition: migrate, load or create
the consumer-state row, then acquire the slot; on acquisition failure the
mapped error is surfaced and the world is left as it stood. -/
def startConsumer (c p : String) (w : PgWorld) : Except StartError PgWorld × PgWorld :=
  match acquireSlot (getSlotName c p) (createOrLoad c p (migrateW w)) with
  | .error e => (.error (mapStartError c p e), createOrLoad c p (migrateW w))
  | .ok w3 => (.ok w3, w3)

/-! ## The pipelined (non-blocking) publishing queue

`createNonBlockingPublishingQueue.ts` is imported by
`OutboxConsumer.start` but absent from the tree. -/

/-- Modelled from the spec: §4.4 pipelined variant — "each submitted
batch carries its commit position; a small min-heap keyed by commit
position tracks ready-but-not-yet-acknowledged batches; an
acknowledgement advances the head only when the head's predecessor has
already advanced".  `next` is the lowest commit position not yet acked,
`ready` the heap's contents, `acks` the ack callbacks run so far, in
order. -/
structure PipeState where
  next : Nat
  ready : List Nat
  acks : List Nat
  deriving Repr, DecidableEq

/-- Drain step: while the head predecessor has advanced (i.e. `next`
itself is ready), run its ack and advance.  Fuelled by the heap size. -/
def drainAux : Nat → PipeState → PipeState
  | 0, s => s
  | fuel + 1, s =>
    if s.next ∈ s.ready then
      drainAux fuel ⟨s.next + 1, s.ready.erase s.next, s.acks ++ [s.next]⟩
    else s

/-- A publish callback for commit position `p` completed: `p` enters the
heap and the queue drains in-order acknowledgements. -/
def completeBatch (s : PipeState) (p : Nat) : PipeState :=
  drainAux (p :: s.ready).length ⟨s.next, p :: s.ready, s.acks⟩

/-- Run of the pipelined queue over a whole interleaving: the batches
with commit positions `0..n-1` were submitted, and `order` is the order
in which their publish callbacks completed. -/
def runQueue (order : List Nat) : PipeState :=
  order.foldl completeBatch ⟨0, [], []⟩

/-- Invariant of the pipelined queue relating the completions processed
so far (`done`) to the queue state. -/
def PipeInv (done : List Nat) (s : PipeState) : Prop :=
  s.acks = List.range s.next ∧ s.ready.Nodup ∧ (∀ p ∈ s.ready, s.next < p) ∧
    done.Perm (List.range s.next ++ s.ready)

/-! ## Retry and the redelivery counter (log backend main queue)

`onPublish` in `OutboxConsumer.start` builds each envelope with
`redeliveryCount: this._state?.redeliveryCount || 0`; `onFailedPublish`
calls `this._state.reportFailedDelivery(tx.lsn)`. -/

/-- One step of the retry protocol: persisting the redelivery counter to
the consumer-state row, or invoking the publish callback with an envelope
carrying the given redelivery count (`ok` = returned normally). -/
inductive RetryAct : Type
  | persist (n : Nat)
  | attempt (redeliveryCount : Nat) (ok : Bool)
  deriving Repr, DecidableEq

/-- Modelled from the spec: the publishing queue's retry loop
(`publishingQueue/*` absent) — "the batch is retried after
`waitAfterFailedPublish`; the redelivery counter is persisted before the
next attempt" (§7), combined with `onPublish`'s envelope construction and
`onFailedPublish → reportFailedDelivery` from the source.  `c` is the
persisted counter, `k` the number of failures still to come. -/
def pgRetryTrace : Nat → Nat → List RetryAct
  | c, 0 => [.attempt c true]
  | c, k + 1 => .attempt c false :: .persist (c + 1) :: pgRetryTrace (c + 1) k

/-! ## Auxiliary polling outbox

From `asyncOutbox/AsyncOutboxConsumer.ts`. -/

/-- A row of the `asyncOutbox` table (§6 persisted state layout). -/
structure AsyncRow where
  position : Nat
  messageId : String
  messageType : String
  payload : String
  delivered : Bool
  failsCount : Option Nat
  addedAt : Nat
  sentAt : Option Nat
  deriving Repr, DecidableEq

/-- The envelope `_processUndeliveredMessages` hands to the publish
callback (`HermesAsyncMessageEnvelope`). -/
structure AsyncEnvelope where
  position : Nat
  messageId : String
  messageType : String
  redeliveryCount : Nat
  payload : String
  deriving Repr, DecidableEq

/-- Milliseconds of `Duration.ofSeconds(n)`. -/
def ofSecondsMs (n : Nat) : Nat := n * 1000

/-- The constructor default `_params.checkInterval || Duration.ofSeconds(15)`,
in milliseconds. -/
def checkIntervalMs (configured : Option Nat) : Nat :=
  configured.getD (ofSecondsMs 15)

instance : IsTotal AsyncRow (fun a b => a.addedAt ≤ b.addedAt) :=
  ⟨fun a b => Nat.le_total a.addedAt b.addedAt⟩

instance : IsTrans AsyncRow (fun a b => a.addedAt ≤ b.addedAt) :=
  ⟨fun _ _ _ hab hbc => Nat.le_trans hab hbc⟩

/-- The tick's row selection:
`SELECT * FROM asyncOutbox WHERE delivered = false ORDER BY addedAt ASC LIMIT 10`. -/
def selectPending (tbl : List AsyncRow) : List AsyncRow :=
  ((tbl.filter fun r => !r.delivered).insertionSort fun a b => a.addedAt ≤ b.addedAt).take 10

/-- The envelope built for a selected row: `redeliveryCount` is the row's
`failsCount || 0`. -/
def envelopeOf (r : AsyncRow) : AsyncEnvelope :=
  ⟨r.position, r.messageId, r.messageType, r.failsCount.getD 0, r.payload⟩

/-- Success branch:
`UPDATE asyncOutbox SET delivered = true, sentAt = NOW() WHERE position = p`. -/
def markDelivered (p now : Nat) (tbl : List AsyncRow) : List AsyncRow :=
  tbl.map fun r => if r.position = p then { r with delivered := true, sentAt := some now } else r

/-- Failure branch:
`UPDATE asyncOutbox SET failsCount = COALESCE(failsCount, 0) + 1 WHERE position = p`. -/
def bumpFails (p : Nat) (tbl : List AsyncRow) : List AsyncRow :=
  tbl.map fun r =>
    if r.position = p then { r with failsCount := some (r.failsCount.getD 0 + 1) } else r

/-- The body of `_processUndeliveredMessages`: select once, then for each
selected row invoke the callback and apply the success or failure update.
`outcome p` tells whether the callback returns normally for the row at
position `p`.  Returns the updated table and the envelopes passed to the
callback, in invocation order. -/
def processTick (outcome : Nat → Bool) (now : Nat) (tbl : List AsyncRow) :
    List AsyncRow × List AsyncEnvelope :=
  (selectPending tbl).foldl
    (fun te r =>
      if outcome r.position then (markDelivered r.position now te.1, te.2 ++ [envelopeOf r])
      else (bumpFails r.position te.1, te.2 ++ [envelopeOf r]))
    (tbl, [])

/-- A scheduled tick including the `_isProcessing` re-entrancy guard: a
tick that fires while a previous one is still running does nothing. -/
def tick (isProcessing : Bool) (outcome : Nat → Bool) (now : Nat) (tbl : List AsyncRow) :
    List AsyncRow × List AsyncEnvelope :=
  if isProcessing then (tbl, []) else processTick outcome now tbl

/-- Iterated failing ticks: the callback throws for every selected row. -/
def failTicks (now : Nat) : Nat → List AsyncRow → List AsyncRow
  | 0, tbl => tbl
  | k + 1, tbl => failTicks now k (processTick (fun _ => false) now tbl).1

/-- Per-row summary of one tick's updates: a row whose position was
selected this tick is marked delivered (callback returned normally) or
has its failure count bumped (callback threw); every other row is left
untouched. -/
def tickRowUpdate (sel : List AsyncRow) (outcome : Nat → Bool) (now : Nat) (r : AsyncRow) :
    AsyncRow :=
  if r.position ∈ sel.map (·.position) then
    (if outcome r.position then { r with delivered := true, sentAt := some now }
     else { r with failsCount := some (r.failsCount.getD 0 + 1) })
  else r

/-- The failure-count column after `n` failing deliveries of a row. -/
def addFails (n : Nat) (r : AsyncRow) : AsyncRow :=
  if n = 0 then r else { r with failsCount := some (r.failsCount.getD 0 + n) }

/-- The effect of handling one selected row `sr` on an arbitrary row of
the table (the `UPDATE ... WHERE position = ...` statements touch every
row whose position matches). -/
def updOne (outcome : Nat → Bool) (now : Nat) (sr : AsyncRow) (x : AsyncRow) : AsyncRow :=
  if x.position = sr.position then
    (if outcome sr.position then { x with delivered := true, sentAt := some now }
     else { x with failsCount := some (x.failsCount.getD 0 + 1) })
  else x

/-! ## Stop handles

The closure `OutboxConsumer.start` returns (log backend), the `stop`
function `createOutboxConsumer.start` returns (document backend), and
`AsyncOutboxConsumer.start`'s returned handle. -/

/-- The teardown steps of the log-backend stop closure. -/
inductive StopEffect : Type
  | killSessions
  | endQuery
  | endReplication
  | stopAsync
  deriving Repr, DecidableEq

/-- Initiation order of the teardown steps in the closure returned by
`OutboxConsumer.start`: `killReplicationProcesses` is awaited first; then
`Promise.all` synchronously initiates, in array order, the query
connection `end({ timeout })`, the replication connection `end` raced
against a 1 s timer, and the async-outbox stop.  Every step is wrapped in
`swallow`. -/
def pgStopEffects : List StopEffect :=
  [.killSessions, .endQuery, .endReplication, .stopAsync]

/-- The effect-initiation trace of `n` invocations of the stop closure:
the closure has no first-call guard, so each invocation re-issues every
step. -/
def pgStopTraceN (n : Nat) : List StopEffect :=
  (List.replicate n pgStopEffects).flatten

/-- The claim's ordering of the teardown: the replication close happens,
and the query close comes after it. -/
def closesReplicationThenQuery (tr : List StopEffect) : Prop :=
  ∃ t1 t2 t3, tr = t1 ++ StopEffect.endReplication :: t2 ++ StopEffect.endQuery :: t3

/-- Connection state the log-backend stop closure acts on. -/
structure PgConnState where
  queryOpen : Bool
  replicationOpen : Bool
  asyncRunning : Bool
  stateLoaded : Bool
  deriving Repr, DecidableEq

/-- The `swallow` helper: run a step and ignore its failure, leaving the state as it
was when the step fails. -/
def swallowStep (step : PgConnState → Except String PgConnState) (s : PgConnState) :
    PgConnState :=
  match step s with
  | .ok t => t
  | .error _ => s

/-- The teardown step `killReplicationProcesses` issues queries over the query connection;
on a closed connection they fail (and are swallowed); the replication
slot's backend sessions are server-side, so the client state is
otherwise unchanged. -/
def killStep (s : PgConnState) : Except String PgConnState :=
  if s.queryOpen then .ok s else .error "CONNECTION_ENDED"

/-- The step `sql.end({ timeout })`: resolves, leaving the connection closed
(already-ended connections resolve immediately). -/
def endQueryStep (s : PgConnState) : Except String PgConnState :=
  .ok { s with queryOpen := false }

/-- The step `subscribeSql.end({ timeout })` raced against the 1 s timer: either
way the replication connection is down afterwards. -/
def endReplicationStep (s : PgConnState) : Except String PgConnState :=
  .ok { s with replicationOpen := false }

/-- The step `asyncOutboxStop()` when an auxiliary outbox is configured,
`Promise.resolve()` otherwise.  The configured handle is exactly the one
`AsyncOutboxConsumer.start` returned — the broken closure of C10 that
evaluates the unbound identifier `stop` — so when an auxiliary consumer
is running the call throws a `ReferenceError` (which the closure
swallows) and the polling interval stays installed; with nothing
configured there is nothing to stop.  Either way the auxiliary
consumer's state is untouched. -/
def stopAsyncStep (s : PgConnState) : Except String PgConnState :=
  if s.asyncRunning then .error "ReferenceError: stop is not defined" else .ok s

/-- The state effect of one invocation of the log-backend stop closure:
all four steps, each swallowed, then `this._state = undefined`. -/
def pgStopRun (s : PgConnState) : PgConnState :=
  let s1 := swallowStep killStep s
  let s2 := swallowStep endQueryStep s1
  let s3 := swallowStep endReplicationStep s2
  let s4 := swallowStep stopAsyncStep s3
  { s4 with stateLoaded := false }

/-- Document-backend watch/cursor state the mongo `stop` acts on. -/
structure MongoWatch where
  closed : Bool
  closeCount : Nat
  stopResolved : Bool
  deriving Repr, DecidableEq

/-- The `stop` function returned by the document backend's `start`: `if
(!watchCursor.closed) { shouldStopPromise.resolve(null); await
watchCursor.close() }`. -/
def mongoStop (s : MongoWatch) : MongoWatch :=
  if s.closed then s else ⟨true, s.closeCount + 1, true⟩

/-! ## The auxiliary consumer's start/stop lifecycle

From `AsyncOutboxConsumer.start` / `stop`. -/

/-- The fields of `AsyncOutboxConsumer` relevant to its lifecycle:
`_started` and whether `_intervalId` holds a live interval. -/
structure AsyncConsumer where
  started : Bool
  intervalSet : Bool
  deriving Repr, DecidableEq

/-- The method `AsyncOutboxConsumer.start`: throws when already started, otherwise
sets `_started` and `_startPolling` installs the interval. -/
def asyncStart (s : AsyncConsumer) : Except String AsyncConsumer :=
  if s.started then .error "AsyncOutboxConsumer is already started"
  else .ok ⟨true, true⟩

/-- The method `AsyncOutboxConsumer.stop`: clears the interval and
resets `_started`. -/
def asyncStopMethod (_s : AsyncConsumer) : AsyncConsumer :=
  ⟨false, false⟩

/-- The handle `AsyncOutboxConsumer.start` returns:
`(() => Promise.resolve(stop())) as Stop`.  The identifier `stop` is not
`this.stop` and is not bound anywhere in scope; Node's global scope has
no `stop`, so invoking the handle throws a `ReferenceError` and leaves
the consumer's fields untouched — in particular the interval stays
installed. -/
def invokeReturnedStopHandle (_s : AsyncConsumer) : Except String AsyncConsumer :=
  .error "ReferenceError: stop is not defined"

/-! ## Helper lemmas -/

theorem queueWithTx_eq (msgs : List Msg) (pk : String) (w : World) (tx : HostTx) :
    queueWithTx msgs pk w tx =
      (⟨w.nextPos + msgs.length, w.committed⟩, ⟨tx.pending ++ mkRows w.nextPos pk msgs⟩) := by
  induction msgs generalizing w tx with
  | nil =>
    rcases w with ⟨np, c⟩
    rcases tx with ⟨pend⟩
    simp [queueWithTx, mkRows]
  | cons m ms ih =>
    have step : queueWithTx (m :: ms) pk w tx =
        queueWithTx ms pk { w with nextPos := w.nextPos + 1 }
          ⟨tx.pending ++ [⟨w.nextPos, m.messageId, m.messageType, pk, m.payload⟩]⟩ := by
      simp [queueWithTx, insertTx]
    rw [step, ih]
    simp [mkRows]
    omega

/-! ## Claim theorems -/

/-- Claim C8. When
decoding an Insert tuple, every column reader consumes a one-byte format
tag followed by a big-endian 32-bit length; only the text tag `t` is
accepted and any other tag fails the decoder's assertion; a
bigint-declared column whose length field is at most 8 is parsed with
`parseInt` (a 64-bit number) while a longer integer text is promoted to
an arbitrary-precision `BigInt`; text and jsonb columns return exactly
the UTF-8 value bytes. -/
theorem c8_tuple_decoding (b : Buffer) (pos : Nat) :
    (b.getD pos 0 ≠ textTag →
      readUInt b pos = .error (.assertFailed "readUInt.columnType") ∧
      readBigInt b pos = .error (.assertFailed "readUInt.columnType") ∧
      readText b pos = .error (.assertFailed "readText.columnType") ∧
      readJsonb b pos = .error (.assertFailed "readText.readJsonb")) ∧
    (b.getD pos 0 = textTag →
      (readU32BE b (pos + 1) ≤ 8 →
        readBigInt b pos =
          .ok (.number (parseDecimal ((b.drop (pos + 5)).take (readU32BE b (pos + 1)))),
            pos + 5 + readU32BE b (pos + 1))) ∧
      (8 < readU32BE b (pos + 1) →
        readBigInt b pos =
          .ok (.big (parseDecimal ((b.drop (pos + 5)).take (readU32BE b (pos + 1)))),
            pos + 5 + readU32BE b (pos + 1))) ∧
      readText b pos =
        .ok ((b.drop (pos + 5)).take (readU32BE b (pos + 1)), pos + 5 + readU32BE b (pos + 1)) ∧
      readJsonb b pos =
        .ok ((b.drop (pos + 5)).take (readU32BE b (pos + 1)), pos + 5 + readU32BE b (pos + 1))) := by
  constructor
  · intro h
    have h' : ¬ b[pos]?.getD 0 = textTag := by simpa [List.getD] using h
    refine ⟨?_, ?_, ?_, ?_⟩ <;>
      simp [readUInt, readBigInt, readText, readJsonb, List.getD, h']
  · intro h
    have h' : b[pos]?.getD 0 = textTag := by simpa [List.getD] using h
    refine ⟨?_, ?_, ?_, ?_⟩
    · intro hle
      have hnot : ¬ 8 < readU32BE b (pos + 1) := by omega
      simp [readBigInt, List.getD, h', hnot]
    · intro hgt
      simp [readBigInt, List.getD, h', hgt]
    · simp [readText, List.getD, h']
    · simp [readJsonb, List.getD, h']

/-- Witness for C8 at concrete buffers: a non-text tag is rejected, and a
3-byte bigint text parses via the `parseInt` branch. -/
theorem c8_tuple_decoding_witness :
    ([110] : Buffer).getD 0 0 ≠ textTag ∧
    readText [110] 0 = .error (.assertFailed "readText.columnType") ∧
    ([116, 0, 0, 0, 3, 52, 50, 49] : Buffer).getD 0 0 = textTag ∧
    readU32BE [116, 0, 0, 0, 3, 52, 50, 49] 1 ≤ 8 ∧
    readBigInt [116, 0, 0, 0, 3, 52, 50, 49] 0 = .ok (.number 421, 8) := by
  refine ⟨by decide, ((c8_tuple_decoding [110] 0).1 (by decide)).2.2.1, by decide, by decide, ?_⟩
  exact (((c8_tuple_decoding [116, 0, 0, 0, 3, 52, 50, 49] 0).2 (by decide)).1 (by decide)).trans rfl

/-- Claim C2. Messages queued on a supplied host-managed transaction only
stage pending rows; aborting the transaction leaves the committed store
exactly as it was, so no publish invocation (which draws from committed
rows only) ever carries a message enqueued in an aborted transaction;
without a supplied transaction, `queue` opens its own transaction and the
insert of all the messages commits atomically with it. -/
theorem c2_atomic_enqueue (w : World) (tx : HostTx) (msgs : List Msg) (pk : String) :
    abortTx (queueWithTx msgs pk w tx).1 (queueWithTx msgs pk w tx).2 = (queueWithTx msgs pk w tx).1 ∧
    (queueApi msgs pk (some tx) w).1.committed = w.committed ∧
    (∀ m ∈ msgs, m.messageId ∉ deliverableIds w →
      m.messageId ∉ deliverableIds (abortTx (queueWithTx msgs pk w tx).1 (queueWithTx msgs pk w tx).2)) ∧
    (queueApi msgs pk none w).1.committed = w.committed ++ mkRows w.nextPos pk msgs := by
  refine ⟨rfl, ?_, ?_, ?_⟩
  · simp [queueApi, queueWithTx_eq]
  · intro m _hm hfresh
    simpa [abortTx, deliverableIds, queueWithTx_eq] using hfresh
  · simp [queueApi, queueOwnTx, queueWithTx_eq, commitTx]

/-- Witness for C2 at a concrete world: a fresh message staged on a host
transaction that aborts is not deliverable afterwards, and the own-
transaction path commits it. -/
theorem c2_atomic_enqueue_witness :
    ("m1" ∉ deliverableIds ⟨1, []⟩) ∧
    ("m1" ∉ deliverableIds (abortTx
      (queueWithTx [⟨"m1", "T", "p"⟩] "default" ⟨1, []⟩ ⟨[]⟩).1
      (queueWithTx [⟨"m1", "T", "p"⟩] "default" ⟨1, []⟩ ⟨[]⟩).2)) ∧
    (queueApi [⟨"m1", "T", "p"⟩] "default" none ⟨1, []⟩).1.committed =
      [⟨1, "m1", "T", "default", "p"⟩] := by
  have h := c2_atomic_enqueue ⟨1, []⟩ ⟨[]⟩ [⟨"m1", "T", "p"⟩] "default"
  refine ⟨by decide, h.2.2.1 ⟨"m1", "T", "p"⟩ (by simp) (by decide), h.2.2.2.trans rfl⟩

/-- Claim C4. With the slot free, the first `start` for a
(consumerName, partitionKey) succeeds; a second `start` for the same pair
against the resulting state fails with `ConsumerAlreadyTaken` — derived
by the catch clause from the engine's slot-acquisition error — and
leaves the server-side state exactly as it was. -/
theorem c4_consumer_mutex (c p : String) (w : PgWorld)
    (hfree : getSlotName c p ∉ w.takenSlots) :
    (startConsumer c p w).1 = .ok (startConsumer c p w).2 ∧
    (startConsumer c p (startConsumer c p w).2).1 = .error (.alreadyTaken c p) ∧
    (startConsumer c p (startConsumer c p w).2).2 = (startConsumer c p w).2 := by
  rcases w with ⟨m0, rows0, slots0⟩
  simp only at hfree
  by_cases hr : (c, p) ∈ rows0
  · have h1 : startConsumer c p ⟨m0, rows0, slots0⟩ =
        (.ok ⟨true, rows0, getSlotName c p :: slots0⟩,
          ⟨true, rows0, getSlotName c p :: slots0⟩) := by
      simp [startConsumer, migrateW, createOrLoad, acquireSlot, hr, hfree]
    have h2 : startConsumer c p ⟨true, rows0, getSlotName c p :: slots0⟩ =
        (.error (.alreadyTaken c p), ⟨true, rows0, getSlotName c p :: slots0⟩) := by
      simp [startConsumer, migrateW, createOrLoad, acquireSlot, hr, mapStartError]
    rw [h1]
    simp [h2]
  · have h1 : startConsumer c p ⟨m0, rows0, slots0⟩ =
        (.ok ⟨true, (c, p) :: rows0, getSlotName c p :: slots0⟩,
          ⟨true, (c, p) :: rows0, getSlotName c p :: slots0⟩) := by
      simp [startConsumer, migrateW, createOrLoad, acquireSlot, hr, hfree]
    have h2 : startConsumer c p ⟨true, (c, p) :: rows0, getSlotName c p :: slots0⟩ =
        (.error (.alreadyTaken c p), ⟨true, (c, p) :: rows0, getSlotName c p :: slots0⟩) := by
      simp [startConsumer, migrateW, createOrLoad, acquireSlot, mapStartError]
    rw [h1]
    simp [h2]

/-- Witness for C4 at a concrete clean server state. -/
theorem c4_consumer_mutex_witness :
    getSlotName "svc" "default" ∉ ([] : List String) ∧
    (startConsumer "svc" "default" ⟨false, [], []⟩).1 =
      .ok (startConsumer "svc" "default" ⟨false, [], []⟩).2 ∧
    (startConsumer "svc" "default"
        (startConsumer "svc" "default" ⟨false, [], []⟩).2).1 =
      .error (.alreadyTaken "svc" "default") := by
  have h := c4_consumer_mutex "svc" "default" ⟨false, [], []⟩ (by simp)
  exact ⟨by simp, h.1, h.2.1⟩

/-- Claim C10, code bug. Evaluation of the code at the failing input: a fresh
auxiliary consumer starts and installs the polling interval, but
invoking the handle `start` returned throws (it evaluates the unbound
identifier `stop` instead of calling `this.stop`), so the interval is
never cleared; the `stop` method itself — never reached — is what would
have cleared it. -/
theorem c10_async_stop_handle_broken :
    asyncStart ⟨false, false⟩ = .ok ⟨true, true⟩ ∧
    invokeReturnedStopHandle ⟨true, true⟩ = .error "ReferenceError: stop is not defined" ∧
    asyncStopMethod ⟨true, true⟩ = ⟨false, false⟩ :=
  ⟨rfl, rfl, rfl⟩

theorem stampDoc_frame (i now : Nat) (ds : List OutboxDoc) :
    (stampDoc i now ds).map docFrame = ds.map docFrame := by
  unfold stampDoc
  rw [List.map_map]
  apply List.map_congr_left
  intro d _
  by_cases h : d.id = i <;> simp [h, docFrame]

theorem watchRunDocs_cons (st : Bool) (now : Nat) (e : ChangeEvent) (es : List ChangeEvent)
    (docs : List OutboxDoc) :
    watchRunDocs st now (e :: es) docs =
      watchRunDocs st now es
        (if e.opInsert && st then stampDoc e.doc.id now docs else docs) := rfl

theorem watchRunDocs_frame (st : Bool) (now : Nat) (events : List ChangeEvent)
    (docs : List OutboxDoc) :
    (watchRunDocs st now events docs).map docFrame = docs.map docFrame := by
  induction events generalizing docs with
  | nil => rfl
  | cons e es ih =>
    rw [watchRunDocs_cons]
    by_cases h : (e.opInsert && st) = true
    · rw [if_pos h, ih, stampDoc_frame]
    · rw [if_neg h]
      exact ih docs

theorem watchRunDocs_noTimestamps (now : Nat) (events : List ChangeEvent)
    (docs : List OutboxDoc) :
    watchRunDocs false now events docs = docs := by
  induction events generalizing docs with
  | nil => rfl
  | cons e es ih =>
    rw [watchRunDocs_cons, if_neg (by simp)]
    exact ih docs

/-- Claim C9, counterexample. With `saveTimestamps` enabled, delivering the
single insert event for an existing outbox document mutates that primary
outbox row: the `watch` loop's `updateOne` stamps `sentAt`, so the row is
not immutable after `enqueue`. -/
theorem c9_counterexample :
    watchRunDocs true 7 [⟨5, true, ⟨1, "default", "d", none⟩⟩] [⟨1, "default", "d", none⟩] =
      [⟨1, "default", "d", some 7⟩] ∧
    ([⟨1, "default", "d", some 7⟩] : List OutboxDoc) ≠ [⟨1, "default", "d", none⟩] := by
  exact ⟨rfl, by decide⟩

/-- Claim C9, amended. Primary outbox rows are created by enqueue and never
deleted, and no field other than the document backend's optional `sentAt`
stamp is ever updated: with `saveTimestamps` off (the default) the watch
run leaves the collection untouched; in general it preserves every row's
identity, partition key and payload; and the log backend's consumer only
appends committed rows, never rewriting existing ones. -/
theorem c9_outbox_rows_immutable (st : Bool) (now : Nat) (events : List ChangeEvent)
    (docs : List OutboxDoc) (msgs : List Msg) (pk : String) (txq : Option HostTx) (w : World) :
    watchRunDocs false now events docs = docs ∧
    (watchRunDocs st now events docs).map docFrame = docs.map docFrame ∧
    (∃ s, (queueApi msgs pk txq w).1.committed = w.committed ++ s) := by
  refine ⟨watchRunDocs_noTimestamps now events docs, watchRunDocs_frame st now events docs, ?_⟩
  cases txq with
  | some tx =>
    exact ⟨[], by simp [queueApi, queueWithTx_eq]⟩
  | none =>
    exact ⟨mkRows w.nextPos pk msgs, by simp [queueApi, queueOwnTx, queueWithTx_eq, commitTx]⟩

/-- Claim C7, counterexample. The log-backend stop closure has no
first-call guard: two invocations issue the session-kill step twice (the
claim says the teardown is performed only once); and within one
invocation the query-connection close is initiated before — not after —
the replication-connection close, refuting the claim's ordering. -/
theorem c7_stop_counterexample :
    (pgStopTraceN 2).count StopEffect.killSessions = 2 ∧
    ¬ closesReplicationThenQuery pgStopEffects := by
  constructor
  · decide
  · rintro ⟨t1, t2, t3, h⟩
    rcases t1 with _ | ⟨a, _ | ⟨b, _ | ⟨c, t1⟩⟩⟩
    · simp [pgStopEffects] at h
    · simp [pgStopEffects] at h
    · simp [pgStopEffects] at h
      rcases t2 with _ | ⟨x, t2⟩ <;> simp_all
    · simp [pgStopEffects] at h
      rcases t1 with _ | ⟨y, t1⟩ <;> simp_all

theorem pgStopRun_eq (s : PgConnState) :
    pgStopRun s = ⟨false, false, s.asyncRunning, false⟩ := by
  rcases s with ⟨q, r, a, st⟩
  cases q <;> cases a <;> rfl

theorem stopAsyncStep_noop (s : PgConnState) : swallowStep stopAsyncStep s = s := by
  rcases s with ⟨q, r, a, st⟩
  cases a <;> rfl

theorem mongoStop_idem (m : MongoWatch) : mongoStop (mongoStop m) = mongoStop m := by
  rcases m with ⟨c, k, r⟩
  cases c <;> rfl

/-- Claim C7, amended. Both stop handles return success on every
invocation (every fallible step is swallowed; the document-backend stop
is a total guard-then-close); the teardown's state effects happen once:
re-invocations leave the state unchanged — the document backend closes
the cursor exactly once, the log backend's re-issued steps are swallowed
no-ops on the already-closed connections; each invocation terminates
lingering backend sessions first and then initiates the query-connection
close and the replication-connection close, leaving both connections
closed.  The async-outbox stop step, however, never takes effect: the
configured handle is the broken closure of C10, its `ReferenceError` is
swallowed, and a running auxiliary consumer stays running. -/
theorem c7_stop_idempotent (s : PgConnState) (m : MongoWatch) (n : Nat) :
    pgStopRun (pgStopRun s) = pgStopRun s ∧
    pgStopRun^[n + 1] s = pgStopRun s ∧
    (pgStopRun s).queryOpen = false ∧
    (pgStopRun s).replicationOpen = false ∧
    (pgStopRun s).asyncRunning = s.asyncRunning ∧
    swallowStep stopAsyncStep s = s ∧
    pgStopEffects.head? = some .killSessions ∧
    pgStopEffects.count StopEffect.endQuery = 1 ∧
    pgStopEffects.count StopEffect.endReplication = 1 ∧
    mongoStop (mongoStop m) = mongoStop m ∧
    mongoStop^[n + 1] m = mongoStop m ∧
    (mongoStop^[n + 1] ⟨false, 0, false⟩).closeCount = 1 := by
  refine ⟨by rw [pgStopRun_eq, pgStopRun_eq], ?_, by rw [pgStopRun_eq],
    by rw [pgStopRun_eq], by rw [pgStopRun_eq], stopAsyncStep_noop s, rfl, by decide, by decide,
    mongoStop_idem m, ?_, ?_⟩
  · rw [Function.iterate_succ_apply]
    exact Function.iterate_fixed (by rw [pgStopRun_eq, pgStopRun_eq]) n
  · rw [Function.iterate_succ_apply]
    exact Function.iterate_fixed (mongoStop_idem m) n
  · rw [Function.iterate_succ_apply]
    rw [Function.iterate_fixed (mongoStop_idem ⟨false, 0, false⟩) n]
    rfl

theorem tickFold_snd (o : Nat → Bool) (now : Nat) (sel : List AsyncRow) :
    ∀ (t : List AsyncRow) (acc : List AsyncEnvelope),
      (sel.foldl (fun te r =>
          if o r.position then (markDelivered r.position now te.1, te.2 ++ [envelopeOf r])
          else (bumpFails r.position te.1, te.2 ++ [envelopeOf r])) (t, acc)).2 =
        acc ++ sel.map envelopeOf := by
  induction sel with
  | nil => intro t acc; simp
  | cons r sel ih =>
    intro t acc
    by_cases h : o r.position = true <;> simp [h, ih]

theorem tickFold_fst (o : Nat → Bool) (now : Nat) (sel : List AsyncRow) :
    ∀ (t : List AsyncRow) (acc : List AsyncEnvelope),
      (sel.foldl (fun te r =>
          if o r.position then (markDelivered r.position now te.1, te.2 ++ [envelopeOf r])
          else (bumpFails r.position te.1, te.2 ++ [envelopeOf r])) (t, acc)).1 =
        sel.foldl (fun t r =>
          if o r.position then markDelivered r.position now t else bumpFails r.position t) t := by
  induction sel with
  | nil => intro t acc; simp
  | cons r sel ih =>
    intro t acc
    by_cases h : o r.position = true <;> simp [h, ih]

theorem step_as_map (o : Nat → Bool) (now : Nat) (r : AsyncRow) (t : List AsyncRow) :
    (if o r.position then markDelivered r.position now t else bumpFails r.position t) =
      t.map (updOne o now r) := by
  by_cases h : o r.position = true
  · rw [if_pos h]
    unfold markDelivered
    apply List.map_congr_left
    intro x _
    by_cases hx : x.position = r.position <;> simp [updOne, hx, h]
  · rw [if_neg h]
    unfold bumpFails
    apply List.map_congr_left
    intro x _
    by_cases hx : x.position = r.position <;> simp [updOne, hx, h]

theorem tickTable_map (o : Nat → Bool) (now : Nat) :
    ∀ (sel t : List AsyncRow), (sel.map (·.position)).Nodup →
      sel.foldl (fun t r =>
          if o r.position then markDelivered r.position now t else bumpFails r.position t) t =
        t.map (tickRowUpdate sel o now) := by
  intro sel
  induction sel with
  | nil =>
    intro t _
    have hall : ∀ x ∈ t, tickRowUpdate [] o now x = id x := by
      intro x _
      simp [tickRowUpdate]
    rw [List.foldl_nil, List.map_congr_left hall, List.map_id]
  | cons r sel ih =>
    intro t hnd
    simp only [List.map_cons, List.nodup_cons] at hnd
    obtain ⟨hr, hsel⟩ := hnd
    rw [List.foldl_cons, step_as_map, ih _ hsel, List.map_map]
    apply List.map_congr_left
    intro x _
    show tickRowUpdate sel o now (updOne o now r x) = tickRowUpdate (r :: sel) o now x
    by_cases hx : x.position = r.position
    · by_cases ho : o r.position = true <;>
        · rcases x with ⟨xp, xm, xt, xpl, xd, xf, xa, xs⟩
          simp only at hx
          subst hx
          simp [updOne, tickRowUpdate, ho, hr]
    · have hupd : updOne o now r x = x := by simp [updOne, hx]
      rw [hupd]
      by_cases hmem : x.position ∈ sel.map (·.position)
      · simp [tickRowUpdate, hmem, hx]
      · simp [tickRowUpdate, hmem, hx]

theorem selectPending_pos_nodup (tbl : List AsyncRow)
    (h : (tbl.map (·.position)).Nodup) :
    ((selectPending tbl).map (·.position)).Nodup := by
  have h1 : ((tbl.filter fun r => !r.delivered).map (·.position)).Nodup :=
    List.Nodup.sublist (List.Sublist.map _ (List.filter_sublist tbl)) h
  have hperm :
      (((tbl.filter fun r => !r.delivered).insertionSort
          fun a b => a.addedAt ≤ b.addedAt).map (·.position)).Perm
        ((tbl.filter fun r => !r.delivered).map (·.position)) :=
    (List.perm_insertionSort _ _).map _
  have h2 := hperm.nodup_iff.mpr h1
  exact List.Nodup.sublist (List.Sublist.map _ (List.take_sublist _ _)) h2

theorem selectPending_mem (tbl : List AsyncRow) (r : AsyncRow) (h : r ∈ selectPending tbl) :
    r.delivered = false ∧ r ∈ tbl := by
  have h1 : r ∈ (tbl.filter fun r => !r.delivered).insertionSort
      fun a b => a.addedAt ≤ b.addedAt := List.mem_of_mem_take h
  have h2 : r ∈ tbl.filter fun r => !r.delivered :=
    (List.perm_insertionSort _ _).mem_iff.mp h1
  refine ⟨?_, List.mem_of_mem_filter h2⟩
  have := List.of_mem_filter h2
  simpa using this

theorem selectPending_sorted (tbl : List AsyncRow) :
    (selectPending tbl).Pairwise fun a b => a.addedAt ≤ b.addedAt := by
  have hs := List.sorted_insertionSort (fun a b => a.addedAt ≤ b.addedAt)
    (tbl.filter fun r => !r.delivered)
  exact hs.sublist (List.take_sublist _ _)

/-- Claim C6. Once started, the auxiliary polling consumer ticks every
`checkInterval` (default 15 s); a tick that fires while a previous one is
still running is skipped; a tick selects at most 10 undelivered rows
ordered by enqueued-at ascending, invokes the publish callback once per
selected row with an envelope whose redelivery count equals the row's
failure count, marks a row delivered and stamps `sentAt = now` when the
callback returns normally, increments its failure count (and nothing
else) when it throws, and leaves every unselected row untouched. -/
theorem c6_aux_polling_tick (o : Nat → Bool) (now : Nat) (tbl : List AsyncRow)
    (hpos : (tbl.map (·.position)).Nodup) :
    checkIntervalMs none = 15000 ∧
    (∀ ms, checkIntervalMs (some ms) = ms) ∧
    tick true o now tbl = (tbl, []) ∧
    (tick false o now tbl).2 = (selectPending tbl).map envelopeOf ∧
    (∀ r ∈ selectPending tbl, (envelopeOf r).redeliveryCount = r.failsCount.getD 0) ∧
    (selectPending tbl).length ≤ 10 ∧
    (∀ r ∈ selectPending tbl, r.delivered = false ∧ r ∈ tbl) ∧
    ((selectPending tbl).Pairwise fun a b => a.addedAt ≤ b.addedAt) ∧
    (tick false o now tbl).1 = tbl.map (tickRowUpdate (selectPending tbl) o now) ∧
    (∀ sel (r : AsyncRow), r.position ∉ sel.map (·.position) →
      tickRowUpdate sel o now r = r) ∧
    (∀ sel (r : AsyncRow), r.position ∈ sel.map (·.position) → o r.position = true →
      tickRowUpdate sel o now r = { r with delivered := true, sentAt := some now }) ∧
    (∀ sel (r : AsyncRow), r.position ∈ sel.map (·.position) → o r.position = false →
      tickRowUpdate sel o now r = { r with failsCount := some (r.failsCount.getD 0 + 1) }) := by
  refine ⟨rfl, fun ms => rfl, rfl, ?_, fun r _ => rfl, ?_, selectPending_mem tbl,
    selectPending_sorted tbl, ?_, ?_, ?_, ?_⟩
  · show (processTick o now tbl).2 = _
    unfold processTick
    exact tickFold_snd o now (selectPending tbl) tbl []
  · exact List.length_take_le _ _
  · show (processTick o now tbl).1 = _
    unfold processTick
    rw [tickFold_fst o now (selectPending tbl) tbl []]
    exact tickTable_map o now (selectPending tbl) tbl (selectPending_pos_nodup tbl hpos)
  · intro sel r hmem
    simp [tickRowUpdate, hmem]
  · intro sel r hmem ho
    simp [tickRowUpdate, hmem, ho]
  · intro sel r hmem ho
    simp [tickRowUpdate, hmem, ho]

/-- Witness for C6 at a concrete two-row table: the older failing row is
selected first, the callback sees its failure count, and the updates land
as claimed. -/
theorem c6_aux_polling_tick_witness :
    (([⟨1, "a", "T", "p", false, some 2, 5, none⟩,
       ⟨2, "b", "T", "q", false, none, 3, none⟩] : List AsyncRow).map (·.position)).Nodup ∧
    (tick false (fun p => p = 2) 99
        [⟨1, "a", "T", "p", false, some 2, 5, none⟩,
         ⟨2, "b", "T", "q", false, none, 3, none⟩]).2 =
      ([⟨2, "b", "T", "q", false, none, 3, none⟩,
        ⟨1, "a", "T", "p", false, some 2, 5, none⟩] : List AsyncRow).map envelopeOf := by
  constructor
  · decide
  · have h := c6_aux_polling_tick (fun p => decide (p = 2)) 99
      [⟨1, "a", "T", "p", false, some 2, 5, none⟩, ⟨2, "b", "T", "q", false, none, 3, none⟩]
      (by decide)
    exact h.2.2.2.1.trans (by rfl)

theorem pgRetry_attempt_true_mem :
    ∀ (k c j : Nat), RetryAct.attempt j true ∈ pgRetryTrace c k ↔ j = c + k := by
  intro k
  induction k with
  | zero =>
    intro c j
    simp [pgRetryTrace]
  | succ k ih =>
    intro c j
    rw [pgRetryTrace]
    simp only [List.mem_cons, RetryAct.attempt.injEq, RetryAct.persist.injEq]
    constructor
    · rintro (⟨hj, hok⟩ | h | h)
      · exact absurd hok (by simp)
      · exact absurd h (by simp)
      · have := (ih (c + 1) j).mp h
        omega
    · intro hj
      refine Or.inr (Or.inr ?_)
      apply (ih (c + 1) j).mpr
      omega

theorem pgRetry_persist_before :
    ∀ (k c : Nat) (t1 t2 : List RetryAct) (j : Nat) (ok : Bool),
      pgRetryTrace c k = t1 ++ RetryAct.attempt j ok :: t2 →
        j = c ∨ RetryAct.persist j ∈ t1 := by
  intro k
  induction k with
  | zero =>
    intro c t1 t2 j ok h
    rw [pgRetryTrace] at h
    rcases t1 with _ | ⟨x, t1⟩
    · simp at h
      exact Or.inl h.1.1.symm
    · simp at h
  | succ k ih =>
    intro c t1 t2 j ok h
    rw [pgRetryTrace] at h
    rcases t1 with _ | ⟨x, t1⟩
    · simp at h
      exact Or.inl h.1.1.symm
    · rcases t1 with _ | ⟨y, t1⟩
      · simp at h
      · simp only [List.cons_append, List.cons.injEq] at h
        obtain ⟨hx, hy, hrest⟩ := h
        rcases ih (c + 1) t1 t2 j ok hrest with hj | hin
        · subst hj hy
          exact Or.inr (by simp)
        · exact Or.inr (by simp [hin])

theorem selectPending_single (r : AsyncRow) (h : r.delivered = false) :
    selectPending [r] = [r] := by
  simp [selectPending, List.insertionSort, List.orderedInsert, h]

theorem processTick_single_fail (r : AsyncRow) (now : Nat) (h : r.delivered = false) :
    processTick (fun _ => false) now [r] =
      ([{ r with failsCount := some (r.failsCount.getD 0 + 1) }], [envelopeOf r]) := by
  unfold processTick
  rw [selectPending_single r h]
  simp [bumpFails]

theorem bump_delivered (r : AsyncRow) :
    ({ r with failsCount := some (r.failsCount.getD 0 + 1) } : AsyncRow).delivered =
      r.delivered := rfl

theorem addFails_bump (k : Nat) (r : AsyncRow) :
    addFails k { r with failsCount := some (r.failsCount.getD 0 + 1) } = addFails (k + 1) r := by
  rcases r with ⟨p, mid, mt, pl, d, fc, aa, sa⟩
  cases k with
  | zero => simp [addFails]
  | succ k =>
    simp [addFails]
    omega

theorem failTicks_single (now : Nat) :
    ∀ (k : Nat) (r : AsyncRow), r.delivered = false →
      failTicks now k [r] = [addFails k r] := by
  intro k
  induction k with
  | zero =>
    intro r _
    simp [failTicks, addFails]
  | succ k ih =>
    intro r h
    show failTicks now k (processTick (fun _ => false) now [r]).1 = _
    rw [processTick_single_fail r now h]
    rw [ih _ (by rw [bump_delivered]; exact h)]
    rw [addFails_bump]

theorem addFails_delivered (k : Nat) (r : AsyncRow) :
    (addFails k r).delivered = r.delivered := by
  unfold addFails
  split <;> rfl

theorem addFails_getD_none (k : Nat) (r : AsyncRow) (h : r.failsCount = none) :
    (addFails k r).failsCount.getD 0 = k := by
  unfold addFails
  split
  · simp [h]
    omega
  · simp [h]

/-- Claim C3, counterexample. The document backend's retry loop
(`_waitUntilEventIsSent`) hands the user callback the bare `message.data`
on every attempt: the value delivered on the successful attempt after 2
failures is identical to the one delivered with 0 failures, so no
reading of the delivered value can yield the number of prior failures —
the delivered envelope carries no redelivery count at all. -/
theorem c3_counterexample :
    (mongoPublishArgs "evt" 2).getLast? = some "evt" ∧
    (mongoPublishArgs "evt" 0).getLast? = some "evt" ∧
    ¬ ∃ rc : String → Nat, ∀ (d : String) (k : Nat) (a : String),
        (mongoPublishArgs d k).getLast? = some a → rc a = k := by
  refine ⟨rfl, rfl, ?_⟩
  rintro ⟨rc, h⟩
  have h2 := h "evt" 2 "evt" rfl
  have h0 := h "evt" 0 "evt" rfl
  omega

/-- Claim C3, amended. For the log backend's main queue: starting from a
persisted redelivery counter of 0, the unique attempt that returns
normally after `K` failures carries redelivery count `K`, and every
attempt with a counter above the starting value is preceded in the trace
by the persistence of that counter (the counter is persisted before each
retry).  For the auxiliary polling outbox: after `K` failing ticks the
row's persisted failure count is `K`, and the successful tick's envelope
carries redelivery count `K`.  (The document backend delivers the raw
event with no redelivery counter; see the counterexample.) -/
theorem c3_redelivery_counter (K c now now2 : Nat) (r : AsyncRow)
    (hdel : r.delivered = false) (hfc : r.failsCount = none) :
    (∀ j, RetryAct.attempt j true ∈ pgRetryTrace 0 K ↔ j = K) ∧
    (∀ t1 t2 j ok, pgRetryTrace c K = t1 ++ RetryAct.attempt j ok :: t2 →
      j = c ∨ RetryAct.persist j ∈ t1) ∧
    failTicks now K [r] = [addFails K r] ∧
    (processTick (fun _ => true) now2 (failTicks now K [r])).2 =
      [⟨r.position, r.messageId, r.messageType, K, r.payload⟩] := by
  refine ⟨?_, ?_, failTicks_single now K r hdel, ?_⟩
  · intro j
    simpa using pgRetry_attempt_true_mem K 0 j
  · intro t1 t2 j ok h
    exact pgRetry_persist_before K c t1 t2 j ok h
  · rw [failTicks_single now K r hdel]
    unfold processTick
    rw [selectPending_single _ (by rw [addFails_delivered]; exact hdel)]
    have hred : envelopeOf (addFails K r) =
        ⟨r.position, r.messageId, r.messageType, K, r.payload⟩ := by
      unfold envelopeOf
      rw [addFails_getD_none K r hfc]
      unfold addFails
      split <;> rfl
    simp [hred]

/-- Witness for C3's amended statement at `K = 2` and a concrete row. -/
theorem c3_redelivery_counter_witness :
    (⟨7, "m", "T", "p", false, none, 1, none⟩ : AsyncRow).delivered = false ∧
    (⟨7, "m", "T", "p", false, none, 1, none⟩ : AsyncRow).failsCount = none ∧
    (RetryAct.attempt 2 true ∈ pgRetryTrace 0 2 ↔ 2 = 2) ∧
    (processTick (fun _ => true) 9
        (failTicks 4 2 [⟨7, "m", "T", "p", false, none, 1, none⟩])).2 =
      [⟨7, "m", "T", 2, "p"⟩] := by
  have h := c3_redelivery_counter 2 0 4 9 ⟨7, "m", "T", "p", false, none, 1, none⟩ rfl rfl
  exact ⟨rfl, rfl, h.1 2, h.2.2.2⟩

theorem ackTokens_append (a b : List WatchAct) :
    ackTokens (a ++ b) = ackTokens a ++ ackTokens b := by
  simp [ackTokens, List.filterMap_append]

theorem ackTokens_replicate_publish (n i : Nat) :
    ackTokens (List.replicate n (.publish i)) = [] := by
  induction n with
  | zero => rfl
  | succ n ih =>
    rw [List.replicate_succ]
    rw [show ackTokens (WatchAct.publish i :: List.replicate n (WatchAct.publish i)) =
        ackTokens (List.replicate n (WatchAct.publish i)) from rfl]
    exact ih

theorem ackTokens_processEvent (st : Bool) (f : Nat) (e : ChangeEvent) :
    ackTokens (processEvent st f e) = if e.opInsert then [e.resumeToken] else [] := by
  by_cases h : e.opInsert = true
  · cases st <;>
      simp [processEvent, h, ackTokens_append, ackTokens_replicate_publish, ackTokens]
  · simp [processEvent, h, ackTokens]

theorem watchTrace_cons (st : Bool) (f : Nat → Nat) (e : ChangeEvent) (es : List ChangeEvent) :
    watchTrace st f (e :: es) = processEvent st (f e.doc.id) e ++ watchTrace st f es := by
  simp [watchTrace]

theorem ackTokens_watchTrace (st : Bool) (f : Nat → Nat) (es : List ChangeEvent) :
    ackTokens (watchTrace st f es) = (es.filter (·.opInsert)).map (·.resumeToken) := by
  induction es with
  | nil => rfl
  | cons e es ih =>
    rw [watchTrace_cons, ackTokens_append, ackTokens_processEvent, ih]
    by_cases h : e.opInsert = true <;> simp [h]

theorem aap_of_noAck (l : List WatchAct) (hno : ∀ i tok, WatchAct.ackUpdate i tok ∉ l) :
    acksAfterPublish l := by
  intro t1 t2 i tok heq
  exact absurd (heq ▸ List.mem_append.mpr (Or.inr (List.mem_cons_self _ _))) (hno i tok)

theorem aap_append (tr1 tr2 : List WatchAct) (h1 : acksAfterPublish tr1)
    (h2 : acksAfterPublish tr2) : acksAfterPublish (tr1 ++ tr2) := by
  intro t1 t2 i tok heq
  rcases List.append_eq_append_iff.mp heq with ⟨a, ha1, ha2⟩ | ⟨a, ha1, ha2⟩
  · have hp := h2 a t2 i tok ha2
    rw [ha1]
    exact List.mem_append.mpr (Or.inr hp)
  · rcases a with _ | ⟨x, a⟩
    · have hp := h2 [] t2 i tok (by simpa using ha2.symm)
      simp at hp
    · simp only [List.cons_append, List.cons.injEq] at ha2
      obtain ⟨hx, ht2⟩ := ha2
      subst hx
      exact h1 t1 a i tok ha1

theorem aap_single (l : List WatchAct) (i tok : Nat) (hpub : WatchAct.publish i ∈ l)
    (hno : ∀ j t, WatchAct.ackUpdate j t ∉ l) :
    acksAfterPublish (l ++ [WatchAct.ackUpdate i tok]) := by
  intro t1 t2 j t heq
  rcases List.append_eq_append_iff.mp heq with ⟨a, ha1, ha2⟩ | ⟨a, ha1, ha2⟩
  · rcases a with _ | ⟨x, a⟩
    · simp only [List.nil_append] at ha2
      have hone : WatchAct.ackUpdate i tok = WatchAct.ackUpdate j t ∧ t2 = [] := by
        simpa using ha2
      injection hone.1 with hij _
      rw [ha1, ← hij]
      simpa using hpub
    · simp only [List.cons_append, List.cons.injEq] at ha2
      obtain ⟨_, habs⟩ := ha2
      exact absurd habs (by simp)
  · rcases a with _ | ⟨x, a⟩
    · simp only [List.append_nil] at ha1
      simp only [List.nil_append] at ha2
      have hone : WatchAct.ackUpdate j t = WatchAct.ackUpdate i tok ∧ t2 = [] := by
        simpa using ha2
      injection hone.1 with hij _
      rw [hij, ← ha1]
      exact hpub
    · simp only [List.cons_append, List.cons.injEq] at ha2
      obtain ⟨hx, _⟩ := ha2
      subst hx
      exact absurd (ha1 ▸ List.mem_append.mpr (Or.inr (List.mem_cons_self _ _))) (hno j t)

theorem aap_processEvent (st : Bool) (f : Nat) (e : ChangeEvent) :
    acksAfterPublish (processEvent st f e) := by
  by_cases h : e.opInsert = true
  · have hshape : processEvent st f e =
        (List.replicate f (WatchAct.publish e.doc.id) ++ [WatchAct.publish e.doc.id] ++
          (if st then [WatchAct.stampSentAt e.doc.id] else [])) ++
          [WatchAct.ackUpdate e.doc.id e.resumeToken] := by
      simp [processEvent, h]
    rw [hshape]
    apply aap_single
    · simp
    · intro j t hmem
      cases st <;> simp [List.mem_replicate] at hmem
  · have : processEvent st f e = [] := by simp [processEvent, h]
    rw [this]
    exact aap_of_noAck [] (by simp)

theorem aap_watchTrace_tail (st : Bool) (fails : Nat → Nat) (es : List ChangeEvent)
    (m j : Nat) :
    acksAfterPublish (watchTrace st fails es ++ List.replicate m (WatchAct.publish j)) := by
  induction es with
  | nil =>
    apply aap_of_noAck
    intro i tok hmem
    simp [watchTrace, List.mem_replicate] at hmem
  | cons e es ih =>
    rw [watchTrace_cons, List.append_assoc]
    exact aap_append _ _ (aap_processEvent st (fails e.doc.id) e) ih

theorem publish_mem_watchTrace (st : Bool) (fails : Nat → Nat) (es : List ChangeEvent) :
    ∀ e ∈ es, e.opInsert = true → WatchAct.publish e.doc.id ∈ watchTrace st fails es := by
  induction es with
  | nil => intro e he; exact absurd he (by simp)
  | cons e0 es ih =>
    intro e he hins
    rw [watchTrace_cons]
    rcases List.mem_cons.mp he with he0 | hes
    · subst he0
      refine List.mem_append.mpr (Or.inl ?_)
      simp [processEvent, hins]
    · exact List.mem_append.mpr (Or.inr (ih e hes hins))

/-- Claim C1. Over a document-backend watch run (any prefix of the stream,
with any per-document failure counts, optionally cut off during a retry
loop — the trailing failed publishes): the persisted ack-token sequence
is strictly increasing in stream order; the consumer-state row is
advanced only after the publish callback for that document has been
invoked and returned normally (every persisted ack is preceded by a
publish of the same document); and every insert event processed by the
run — in particular every one at or below the final persisted ack — has
been handed to the publish callback at least once. -/
theorem c1_no_gap_monotonic_acks (st : Bool) (fails : Nat → Nat) (events : List ChangeEvent)
    (m j : Nat) (hmono : (events.map (·.resumeToken)).Pairwise (· < ·)) :
    (ackTokens (watchTrace st fails events ++
      List.replicate m (WatchAct.publish j))).Pairwise (· < ·) ∧
    acksAfterPublish (watchTrace st fails events ++ List.replicate m (WatchAct.publish j)) ∧
    (∀ e ∈ events, e.opInsert = true →
      WatchAct.publish e.doc.id ∈
        watchTrace st fails events ++ List.replicate m (WatchAct.publish j)) := by
  refine ⟨?_, aap_watchTrace_tail st fails events m j, ?_⟩
  · rw [ackTokens_append, ackTokens_replicate_publish, List.append_nil, ackTokens_watchTrace]
    exact List.Pairwise.sublist (List.Sublist.map _ (List.filter_sublist events)) hmono
  · intro e he hins
    exact List.mem_append.mpr (Or.inl (publish_mem_watchTrace st fails events e he hins))

/-- Witness for C1 at a concrete three-event stream (one non-insert, one
retry, a trailing cut-off failure). -/
theorem c1_no_gap_monotonic_acks_witness :
    (([⟨1, true, ⟨10, "default", "a", none⟩⟩, ⟨2, false, ⟨11, "default", "b", none⟩⟩,
       ⟨3, true, ⟨12, "default", "c", none⟩⟩] : List ChangeEvent).map
        (·.resumeToken)).Pairwise (· < ·) ∧
    (ackTokens (watchTrace true (fun _ => 1)
        [⟨1, true, ⟨10, "default", "a", none⟩⟩, ⟨2, false, ⟨11, "default", "b", none⟩⟩,
         ⟨3, true, ⟨12, "default", "c", none⟩⟩] ++
      List.replicate 2 (WatchAct.publish 99))).Pairwise (· < ·) ∧
    WatchAct.publish 10 ∈ watchTrace true (fun _ => 1)
        [⟨1, true, ⟨10, "default", "a", none⟩⟩, ⟨2, false, ⟨11, "default", "b", none⟩⟩,
         ⟨3, true, ⟨12, "default", "c", none⟩⟩] ++
      List.replicate 2 (WatchAct.publish 99) := by
  have h := c1_no_gap_monotonic_acks true (fun _ => 1)
    [⟨1, true, ⟨10, "default", "a", none⟩⟩, ⟨2, false, ⟨11, "default", "b", none⟩⟩,
     ⟨3, true, ⟨12, "default", "c", none⟩⟩] 2 99 (by decide)
  exact ⟨by decide, h.1,
    h.2.2 ⟨1, true, ⟨10, "default", "a", none⟩⟩ (by simp) rfl⟩

theorem drainAux_spec :
    ∀ (fuel : Nat) (s : PipeState), s.ready.Nodup → (∀ p ∈ s.ready, s.next ≤ p) →
      s.acks = List.range s.next → s.ready.length ≤ fuel →
      (drainAux fuel s).acks = List.range (drainAux fuel s).next ∧
      (drainAux fuel s).ready.Nodup ∧
      (∀ p ∈ (drainAux fuel s).ready, (drainAux fuel s).next < p) ∧
      (List.range s.next ++ s.ready).Perm
        (List.range (drainAux fuel s).next ++ (drainAux fuel s).ready) := by
  intro fuel
  induction fuel with
  | zero =>
    intro s hnd hge hacks hlen
    have hnil : s.ready = [] := List.length_eq_zero.mp (Nat.le_zero.mp hlen)
    rw [drainAux]
    refine ⟨hacks, hnd, ?_, .refl _⟩
    intro p hp
    rw [hnil] at hp
    exact absurd hp (by simp)
  | succ fuel ih =>
    intro s hnd hge hacks hlen
    rw [drainAux]
    by_cases hmem : s.next ∈ s.ready
    · rw [if_pos hmem]
      have hnd' : (s.ready.erase s.next).Nodup := hnd.erase _
      have hge' : ∀ p ∈ s.ready.erase s.next, s.next + 1 ≤ p := by
        intro p hp
        have hpp := hnd.mem_erase_iff.mp hp
        have := hge p hpp.2
        rcases Nat.lt_or_ge s.next p with h | h
        · omega
        · exact absurd (Nat.le_antisymm h this) hpp.1
      have hacks' : s.acks ++ [s.next] = List.range (s.next + 1) := by
        rw [hacks, List.range_succ]
      have hpos := List.length_pos_of_mem hmem
      have hlen' : (s.ready.erase s.next).length ≤ fuel := by
        rw [List.length_erase_of_mem hmem]
        omega
      have h := ih ⟨s.next + 1, s.ready.erase s.next, s.acks ++ [s.next]⟩ hnd' hge' hacks' hlen'
      refine ⟨h.1, h.2.1, h.2.2.1, ?_⟩
      have p1 : (List.range s.next ++ s.ready).Perm
          (List.range s.next ++ (s.next :: s.ready.erase s.next)) :=
        List.Perm.append_left _ (List.perm_cons_erase hmem)
      have p2 : List.range s.next ++ (s.next :: s.ready.erase s.next) =
          List.range (s.next + 1) ++ s.ready.erase s.next := by
        rw [List.range_succ]
        simp
      rw [p2] at p1
      exact p1.trans h.2.2.2
    · rw [if_neg hmem]
      refine ⟨hacks, hnd, ?_, .refl _⟩
      intro p hp
      have := hge p hp
      rcases Nat.lt_or_ge s.next p with h | h
      · exact h
      · have hpe : p = s.next := Nat.le_antisymm h this
        rw [hpe] at hp
        exact absurd hp hmem

theorem completeBatch_inv (done : List Nat) (s : PipeState) (p : Nat)
    (hinv : PipeInv done s) (hp : p ∉ done) : PipeInv (done ++ [p]) (completeBatch s p) := by
  obtain ⟨hacks, hnd, hgt, hperm⟩ := hinv
  have hpn : p ∉ List.range s.next ++ s.ready := fun h => hp (hperm.mem_iff.mpr h)
  simp only [List.mem_append, not_or, List.mem_range, not_lt] at hpn
  obtain ⟨hp1, hp2⟩ := hpn
  have hnd' : (p :: s.ready).Nodup := by
    rw [List.nodup_cons]
    exact ⟨hp2, hnd⟩
  have hge' : ∀ q ∈ p :: s.ready, s.next ≤ q := by
    intro q hq
    rcases List.mem_cons.mp hq with hq | hq
    · omega
    · exact Nat.le_of_lt (hgt q hq)
  have h := drainAux_spec (p :: s.ready).length ⟨s.next, p :: s.ready, s.acks⟩
    hnd' hge' hacks (Nat.le_refl _)
  refine ⟨h.1, h.2.1, h.2.2.1, ?_⟩
  have p0 : (done ++ [p]).Perm ((List.range s.next ++ s.ready) ++ [p]) :=
    hperm.append_right [p]
  have p1 : ((List.range s.next ++ s.ready) ++ [p]).Perm
      (List.range s.next ++ (p :: s.ready)) := by
    rw [List.append_assoc]
    exact List.Perm.append_left _ (List.perm_append_singleton p s.ready)
  exact (p0.trans p1).trans h.2.2.2

theorem runQueue_inv :
    ∀ (rest done : List Nat) (s : PipeState), PipeInv done s → (done ++ rest).Nodup →
      PipeInv (done ++ rest) (rest.foldl completeBatch s) := by
  intro rest
  induction rest with
  | nil =>
    intro done s hinv _
    simpa using hinv
  | cons p rest ih =>
    intro done s hinv hnd
    have hp : p ∉ done := by
      intro hmem
      have hdisj := (List.nodup_append.mp hnd).2.2
      exact hdisj hmem (List.mem_cons_self _ _)
    have hassoc : done ++ p :: rest = (done ++ [p]) ++ rest := by simp
    rw [hassoc] at hnd ⊢
    rw [List.foldl_cons]
    exact ih (done ++ [p]) (completeBatch s p) (completeBatch_inv done s p hinv hp) hnd

theorem pipeInv_final (n : Nat) (done : List Nat) (s : PipeState)
    (hinv : PipeInv done s) (hperm : done.Perm (List.range n)) :
    s.acks = List.range n ∧ s.ready = [] := by
  obtain ⟨hacks, hnd, hgt, hp⟩ := hinv
  have hq : (List.range n).Perm (List.range s.next ++ s.ready) := hperm.symm.trans hp
  have hnext : n ≤ s.next := by
    by_contra hlt
    push_neg at hlt
    have h1 : s.next ∈ List.range n := List.mem_range.mpr hlt
    have h2 : s.next ∈ List.range s.next ++ s.ready := hq.subset h1
    rcases List.mem_append.mp h2 with h3 | h3
    · exact absurd (List.mem_range.mp h3) (lt_irrefl _)
    · exact absurd (hgt _ h3) (lt_irrefl _)
  have hlen : n = s.next + s.ready.length := by
    have := hq.length_eq
    simpa using this
  have hready : s.ready = [] := by
    have : s.ready.length = 0 := by omega
    exact List.length_eq_zero.mp this
  have hn : s.next = n := by omega
  exact ⟨by rw [hacks, hn], hready⟩

/-- Claim C5. Modelled pipelined queue: for every interleaving of publish
completions of the batches with commit positions `0..n-1`, the ack
callbacks run exactly in commit order (`range n` — monotone and with no
gap), the reorder heap is empty at the end, and at every intermediate
point the heap holds exactly the completed-but-not-yet-acknowledged
batches, so its size is bounded by the number of outstanding batches. -/
theorem c5_pipelined_reordering (order : List Nat) (n : Nat)
    (hperm : order.Perm (List.range n)) :
    (runQueue order).acks = List.range n ∧
    (runQueue order).ready = [] ∧
    (∀ k, k ≤ n →
      ((runQueue (order.take k)).ready).length + (runQueue (order.take k)).next = k) := by
  have hnd : order.Nodup := hperm.symm.nodup (List.nodup_range n)
  have hinv0 : PipeInv [] ⟨0, [], []⟩ := ⟨rfl, List.nodup_nil, by simp, by simp⟩
  have hmain := runQueue_inv order [] ⟨0, [], []⟩ hinv0 (by simpa using hnd)
  rw [List.nil_append] at hmain
  have hfin := pipeInv_final n order (runQueue order) hmain hperm
  refine ⟨hfin.1, hfin.2, ?_⟩
  intro k hk
  have hndk : (order.take k).Nodup := List.Nodup.sublist (List.take_sublist _ _) hnd
  have hik := runQueue_inv (order.take k) [] ⟨0, [], []⟩ hinv0 (by simpa using hndk)
  rw [List.nil_append] at hik
  obtain ⟨_, _, _, hp⟩ := hik
  have hlenk : (order.take k).length = k := by
    rw [List.length_take]
    have := hperm.length_eq
    simp at this
    omega
  have hlen := hp.length_eq
  rw [hlenk] at hlen
  simp at hlen
  show ((order.take k).foldl completeBatch ⟨0, [], []⟩).ready.length +
    ((order.take k).foldl completeBatch ⟨0, [], []⟩).next = k
  omega

/-- Witness for C5 at the interleaving 2, 0, 1 of three batches. -/
theorem c5_pipelined_reordering_witness :
    ([2, 0, 1] : List Nat).Perm (List.range 3) ∧
    (runQueue [2, 0, 1]).acks = List.range 3 ∧
    (runQueue ([2, 0, 1].take 2)).ready.length + (runQueue ([2, 0, 1].take 2)).next = 2 := by
  have h := c5_pipelined_reordering [2, 0, 1] 3 (by decide)
  exact ⟨by decide, h.1, h.2.2 2 (by omega)⟩

end Hermes
